import Mathlib

/-!
Verification development for the cycamore `Reactor` facility
(`src/reactor.h`).  The repository ships only the header: it declares the
data members (inventory buffers, cycle parameters, fuel arrays, change
schedules) and the operations (`Discharge`, `Load`, `Transmute`,
`PopSpent`, `PushSpent`, `PeekSpent`, the exchange callbacks), while the
bodies live in a translation unit that is not part of the sources here.
The operations below are therefore modelled from the specification
(spec.md sections 3, 4 and 7), keeping the names and member layout of the
header.  Masses are rationals; assembly counts and time steps are natural
numbers.
-/

namespace Cycamore

/-- An indivisible fuel assembly: a resource object id, a composition
(recipe name) and a mass in kg (spec section 3, Assembly). -/
structure Assembly where
  obj_id : Nat
  recipe : String
  mass : ℚ
deriving DecidableEq, Repr

/-- Static configuration of the reactor, mirroring the member variables of
`Reactor` in `src/reactor.h`: inventory and core parameters, cycle
parameters, the parallel fuel-specification arrays and the
preference-change schedule arrays. -/
structure Config where
  n_assem_batch : Nat
  assem_size : ℚ
  n_assem_core : Nat
  n_assem_spent : Nat
  n_assem_fresh : Nat
  cycle_time : Nat
  refuel_time : Nat
  fuel_incommods : List String
  fuel_inrecipes : List String
  fuel_outrecipes : List String
  fuel_outcommods : List String
  fuel_prefs : List ℚ
  pref_change_times : List Nat
  pref_change_commods : List String
  pref_change_values : List ℚ
deriving DecidableEq, Repr

/-- Mutable state of the reactor: the three inventory buffers (`fresh`,
`core`, `spent` in `src/reactor.h`), the resource index `res_indexes`
mapping resource object ids to fuel-type indexes, the cycle clock
`cycle_step`, the `discharged` flag, the refuel-wait counter (steps
elapsed since `discharged` became true, spec section 4.3) and the current
effective preferences. -/
structure ReactorState where
  fresh : List Assembly
  core : List Assembly
  spent : List Assembly
  res_indexes : List (Nat × Nat)
  cycle_step : Nat
  refuel_step : Nat
  discharged : Bool
  fuel_prefs : List ℚ
deriving DecidableEq, Repr

/-- Total mass held in a buffer (`ResBuf::quantity`). -/
def quantity (l : List Assembly) : ℚ :=
  (l.map Assembly.mass).sum

/-- Fuel-type index a resource was received under (`res_indexes` lookup). -/
def res_index (s : ReactorState) (a : Assembly) : Option Nat :=
  s.res_indexes.lookup a.obj_id

/-- Modelled from the spec: the body of `Reactor::fuel_outrecipe` is not
under src.  Resolve the output recipe of an assembly through the resource
index; an unresolvable resource (fatal `UnknownResource`, spec section 7)
is modelled as leaving the composition unchanged. -/
def fuel_outrecipe (cfg : Config) (s : ReactorState) (a : Assembly) : String :=
  match res_index s a with
  | some i => (cfg.fuel_outrecipes[i]?).getD a.recipe
  | none => a.recipe

/-- Modelled from the spec: the body of `Reactor::fuel_outcommod` is not
under src.  Resolve the output commodity of an assembly through the
resource index. -/
def fuel_outcommod (cfg : Config) (s : ReactorState) (a : Assembly) : String :=
  match res_index s a with
  | some i => (cfg.fuel_outcommods[i]?).getD ""
  | none => ""

/-- Modelled from the spec: the body of `Reactor::Transmute` is not under
src.  Instantaneous recipe substitution (spec section 4.4): the
composition becomes the outrecipe of the resolved fuel type, the mass is
untouched. -/
def transmuteAssem (cfg : Config) (s : ReactorState) (a : Assembly) : Assembly :=
  { a with recipe := fuel_outrecipe cfg s a }

/-- Transmute a whole batch (spec section 4.4). -/
def Transmute (cfg : Config) (s : ReactorState) (batch : List Assembly) : List Assembly :=
  batch.map (transmuteAssem cfg s)

/-- Modelled from the spec: the body of `Reactor::Discharge` is not under
src.  Discharge a batch from the core if there is room in the spent fuel
inventory for a full batch of `n_assem_batch` assemblies (spec section
4.3, step 1); returns true iff a batch was discharged, and on failure the
state is returned untouched. -/
def Discharge (cfg : Config) (s : ReactorState) : Bool × ReactorState :=
  if s.spent.length + cfg.n_assem_batch ≤ cfg.n_assem_spent then
    (true,
      { s with
        core := s.core.drop cfg.n_assem_batch,
        spent := s.spent ++ Transmute cfg s (s.core.take cfg.n_assem_batch) })
  else (false, s)

/-- Modelled from the spec: the body of `Reactor::Load` is not under src.
Top up the core from the fresh inventory, moving whole assemblies in
insertion order while the core has space (spec section 4.5). -/
def Load (cfg : Config) (s : ReactorState) : ReactorState :=
  let n := min (cfg.n_assem_core - s.core.length) s.fresh.length
  { s with core := s.core ++ s.fresh.take n, fresh := s.fresh.drop n }

/-- Modelled from the spec: the discharge step of `Reactor::Tick` is not
under src.  If the cycle is complete and the batch has not been discharged
yet, attempt the discharge (spec section 4.3, step 1); success sets the
`discharged` flag and restarts the refuel-wait counter. -/
def dischargePhase (cfg : Config) (s : ReactorState) : ReactorState :=
  if cfg.cycle_time ≤ s.cycle_step ∧ s.discharged = false then
    if (Discharge cfg s).1 = true then
      { (Discharge cfg s).2 with discharged := true, refuel_step := 0 }
    else (Discharge cfg s).2
  else s

/-- The facility is operating: inside the cycle and not yet discharged
(spec section 4.3). -/
def Operating (cfg : Config) (s : ReactorState) : Prop :=
  s.cycle_step < cfg.cycle_time ∧ s.discharged = false

instance (cfg : Config) (s : ReactorState) : Decidable (Operating cfg s) := by
  unfold Operating; exact inferInstance

/-- The refueling period may end: discharged, core full again, and at
least `refuel_time` steps since the discharge (spec section 4.3, step 2). -/
def resumeReady (cfg : Config) (s : ReactorState) : Prop :=
  s.discharged = true ∧ s.core.length = cfg.n_assem_core ∧ cfg.refuel_time ≤ s.refuel_step

instance (cfg : Config) (s : ReactorState) : Decidable (resumeReady cfg s) := by
  unfold resumeReady; exact inferInstance

/-- Modelled from the spec: the clock bookkeeping of `Reactor::Tock` is
not under src.  After discharge and reload, either resume a new cycle
(spec section 4.3, step 2), advance the operating clock while operating
(step 3), advance the refuel-wait counter while discharged, or stall. -/
def cycleNext (cfg : Config) (t : ReactorState) : ReactorState :=
  if resumeReady cfg t then
    { t with cycle_step := 0, discharged := false }
  else if Operating cfg t then
    { t with cycle_step := t.cycle_step + 1 }
  else if t.discharged = true then
    { t with refuel_step := t.refuel_step + 1 }
  else t

/-- Modelled from the spec: the bodies of `Reactor::Tick` and
`Reactor::Tock` are not under src.  One per-step advance of the cycle
state machine (spec sections 2 and 4.3): attempt the due discharge, reload
the core, then move the clocks. -/
def CycleAdvance (cfg : Config) (s : ReactorState) : ReactorState :=
  cycleNext cfg (Load cfg (dischargePhase cfg s))

/-- Index of the first fuel type whose input commodity matches (spec
section 4.1, the FuelType whose incommod matches). -/
def commodIdx : List String → String → Option Nat
  | [], _ => none
  | c :: cs, d => if c = d then some 0 else (commodIdx cs d).map (· + 1)

/-- One fuel request: commodity, recipe, quantity and preference (spec
section 4.6, Requesting). -/
structure Request where
  commod : String
  recipe : String
  qty : ℚ
  pref : ℚ
deriving DecidableEq, Repr

/-- The per-fuel-type request alternatives for one needed assembly, tagged
with incommod, inrecipe, an assembly-sized quantity and the current
preference (spec section 4.6). -/
def requestsFor (cfg : Config) (s : ReactorState) : List Request :=
  (List.range cfg.fuel_incommods.length).map (fun i =>
    { commod := cfg.fuel_incommods.getD i "",
      recipe := cfg.fuel_inrecipes.getD i "",
      qty := cfg.assem_size,
      pref := s.fuel_prefs.getD i 0 })

/-- Modelled from the spec: the body of `Reactor::GetMatlRequests` is not
under src.  Remaining need in whole assemblies is the free fresh-buffer
space plus the free core space; with `n_assem_fresh = 0` requests are
emitted just-in-time, only when the core is short and the cycle is past
its discharge (spec sections 4.3 edge case and 4.6). -/
def GetMatlRequests (cfg : Config) (s : ReactorState) : List (List Request) :=
  let n_assem_order :=
    (cfg.n_assem_fresh - s.fresh.length) + (cfg.n_assem_core - s.core.length)
  if cfg.n_assem_fresh = 0 ∧ ¬(s.core.length < cfg.n_assem_core ∧ s.discharged = true) then
    []
  else
    (List.range n_assem_order).map (fun _ => requestsFor cfg s)

/-- Modelled from the spec: the body of `Reactor::index_res` is not under
src.  Record the fuel-type index a received resource was acquired under;
an unsupported commodity is a fatal protocol violation (spec section 7,
UnknownResource), modelled as `none`. -/
def index_res (cfg : Config) (s : ReactorState) (a : Assembly) (incommod : String) :
    Option ReactorState :=
  match commodIdx cfg.fuel_incommods incommod with
  | some i => some { s with res_indexes := (a.obj_id, i) :: s.res_indexes }
  | none => none

/-- Modelled from the spec: the body of `Reactor::AcceptMatlTrades` is not
under src, acceptance of one traded resource.  The resource is indexed,
then pushed into the fresh buffer, or toward the core when the fresh
buffer has no space left (spec section 4.6); a push with no space
anywhere is the fatal `CapacityExceeded` (spec section 7), modelled as
`none`. -/
def acceptOne (cfg : Config) (s : ReactorState) (e : String × Assembly) :
    Option ReactorState :=
  match index_res cfg s e.2 e.1 with
  | none => none
  | some t =>
    if t.fresh.length < cfg.n_assem_fresh then
      some { t with fresh := t.fresh ++ [e.2] }
    else if t.core.length < cfg.n_assem_core then
      some { t with core := t.core ++ [e.2] }
    else none

/-- Modelled from the spec: the body of `Reactor::AcceptMatlTrades` is not
under src.  Accept every delivered trade in order (spec section 4.6). -/
def AcceptMatlTrades (cfg : Config) (s : ReactorState)
    (resps : List (String × Assembly)) : Option ReactorState :=
  resps.foldlM (acceptOne cfg) s

/-- Modelled from the spec: the body of `Reactor::PeekSpent` is not under
src.  All spent assemblies indexed by outcommod, without removing them
from the spent buffer: the state component is returned untouched. -/
def PeekSpent (cfg : Config) (s : ReactorState) :
    List (String × List Assembly) × ReactorState :=
  (((s.spent.map (fuel_outcommod cfg s)).dedup).map
      (fun c => (c, s.spent.filter (fun a => fuel_outcommod cfg s a == c))),
    s)

/-- Modelled from the spec: the body of `Reactor::PopSpent` is not under
src.  All spent assemblies indexed by outcommod, removed from the spent
buffer. -/
def PopSpent (cfg : Config) (s : ReactorState) :
    List (String × List Assembly) × ReactorState :=
  ((PeekSpent cfg s).1, { s with spent := [] })

/-- Modelled from the spec: the body of `Reactor::PushSpent` is not under
src.  Complement of `PopSpent`: return every leftover assembly to the
spent buffer. -/
def PushSpent (s : ReactorState) (leftover : List (String × List Assembly)) :
    ReactorState :=
  { s with spent := s.spent ++ (leftover.map Prod.snd).flatten }

/-- Take one assembly out of the group held under the given outcommod, if
any; every other group is untouched. -/
def takeFromGroup : List (String × List Assembly) → String →
    Option Assembly × List (String × List Assembly)
  | [], _ => (none, [])
  | (c, l) :: rest, d =>
    if c = d then
      match l with
      | [] => (none, (c, l) :: rest)
      | a :: l1 => (some a, (c, l1) :: rest)
    else
      let r := takeFromGroup rest d
      (r.1, (c, l) :: r.2)

/-- Serve the confirmed trades one by one from the popped groups,
collecting the responses and the leftover groups. -/
def serveTrades (mats : List (String × List Assembly)) :
    List String → List Assembly × List (String × List Assembly)
  | [] => ([], mats)
  | c :: cs =>
    match takeFromGroup mats c with
    | (some a, mats1) =>
      let r := serveTrades mats1 cs
      (a :: r.1, r.2)
    | (none, mats1) => serveTrades mats1 cs

/-- Modelled from the spec: the body of `Reactor::GetMatlTrades` is not
under src.  Pop the whole spent inventory grouped by outcommod, hand one
assembly to each confirmed trade, and push every unconfirmed assembly back
into the spent buffer unchanged (spec section 4.6, Bidding). -/
def GetMatlTrades (cfg : Config) (s : ReactorState) (trades : List String) :
    List Assembly × ReactorState :=
  let pr := PopSpent cfg s
  let sv := serveTrades pr.1 trades
  (sv.1, PushSpent pr.2 sv.2)

/-- The preference-change schedule as one list of (time, commodity, value)
entries, zipped from the three parallel arrays of `src/reactor.h`. -/
def prefChanges (cfg : Config) : List (Nat × String × ℚ) :=
  cfg.pref_change_times.zip (cfg.pref_change_commods.zip cfg.pref_change_values)

/-- Replace the preference of the fuel type whose incommod matches (spec
section 4.1, apply_due_changes). -/
def setPref (incommods : List String) (p : List ℚ) (c : String) (v : ℚ) : List ℚ :=
  match commodIdx incommods c with
  | some j => p.set j v
  | none => p

/-- Apply every schedule entry whose time equals the current time, in
schedule order (spec section 4.1). -/
def applyPrefChangesAux (incommods : List String) (t : Nat)
    (es : List (Nat × String × ℚ)) (p : List ℚ) : List ℚ :=
  es.foldl (fun q e => if e.1 = t then setPref incommods q e.2.1 e.2.2 else q) p

/-- Modelled from the spec: the preference-change step of `Reactor::Tick`
is not under src.  For every ScheduledChange whose time equals the current
time, replace the preference of the matching fuel type (spec sections 3
and 4.1). -/
def applyPrefChanges (cfg : Config) (t : Nat) (p : List ℚ) : List ℚ :=
  applyPrefChangesAux cfg.fuel_incommods t (prefChanges cfg) p

/-- Effective preferences after the schedule applications of steps
`0, 1, ..., t`. -/
def prefsAt (cfg : Config) : Nat → List ℚ
  | 0 => applyPrefChanges cfg 0 cfg.fuel_prefs
  | t + 1 => applyPrefChanges cfg (t + 1) (prefsAt cfg t)

/-- The parallel fuel arrays are inconsistent: `fuel_inrecipes`,
`fuel_outrecipes`, `fuel_outcommods`, and a non-empty `fuel_prefs`, must
all match the length of `fuel_incommods` (spec section 4.1). -/
def fuelArraysMismatched (cfg : Config) : Prop :=
  cfg.fuel_inrecipes.length ≠ cfg.fuel_incommods.length
  ∨ cfg.fuel_outrecipes.length ≠ cfg.fuel_incommods.length
  ∨ cfg.fuel_outcommods.length ≠ cfg.fuel_incommods.length
  ∨ (cfg.fuel_prefs ≠ [] ∧ cfg.fuel_prefs.length ≠ cfg.fuel_incommods.length)

instance (cfg : Config) : Decidable (fuelArraysMismatched cfg) := by
  unfold fuelArraysMismatched; exact inferInstance

/-- Modelled from the spec: the body of `Reactor::EnterNotify` is not
under src.  Validate the parallel fuel arrays at facility entry: a length
mismatch is a fatal configuration error; an empty preference array
defaults to a zero preference for every fuel type (spec sections 4.1 and
7, and the `fuel_prefs` documentation in `src/reactor.h`). -/
def EnterNotify (cfg : Config) : Except String Config :=
  if fuelArraysMismatched cfg then
    .error "fuel commodity and recipe arrays have mismatched lengths"
  else
    .ok { cfg with
          fuel_prefs :=
            if cfg.fuel_prefs = [] then
              List.replicate cfg.fuel_incommods.length 0
            else cfg.fuel_prefs }

/-- Every assembly held in the three buffers has the configured assembly
mass (spec section 3: an Assembly is an indivisible unit of fixed mass
`assem_size`). -/
def UniformMass (cfg : Config) (s : ReactorState) : Prop :=
  (∀ a ∈ s.fresh, a.mass = cfg.assem_size)
  ∧ (∀ a ∈ s.core, a.mass = cfg.assem_size)
  ∧ (∀ a ∈ s.spent, a.mass = cfg.assem_size)

/-- Assembly-count bounds of the three buffers (spec section 3,
Inventories). -/
def CountInv (cfg : Config) (s : ReactorState) : Prop :=
  s.fresh.length ≤ cfg.n_assem_fresh
  ∧ s.core.length ≤ cfg.n_assem_core
  ∧ s.spent.length ≤ cfg.n_assem_spent

/-- The buffer invariant: uniform assembly masses and count bounds. -/
def Inv (cfg : Config) (s : ReactorState) : Prop :=
  UniformMass cfg s ∧ CountInv cfg s

/-- The capacity bounds of spec section 8: the mass in each buffer is at
most assembly count times assembly size. -/
def MassBounds (cfg : Config) (s : ReactorState) : Prop :=
  quantity s.fresh ≤ (cfg.n_assem_fresh : ℚ) * cfg.assem_size
  ∧ quantity s.core ≤ (cfg.n_assem_core : ℚ) * cfg.assem_size
  ∧ quantity s.spent ≤ (cfg.n_assem_spent : ℚ) * cfg.assem_size

lemma quantity_append (l1 l2 : List Assembly) :
    quantity (l1 ++ l2) = quantity l1 + quantity l2 := by
  simp [quantity]

lemma quantity_uniform (l : List Assembly) (m : ℚ) (h : ∀ a ∈ l, a.mass = m) :
    quantity l = (l.length : ℚ) * m := by
  induction l with
  | nil => simp [quantity]
  | cons a l ih =>
    have ha : a.mass = m := h a (by simp)
    have hl : ∀ b ∈ l, b.mass = m := fun b hb => h b (by simp [hb])
    simp [quantity, List.map_cons] at *
    rw [ih hl] at *
    ring_nf
    rw [ha]
    ring

lemma quantity_le_of_uniform (l : List Assembly) (m : ℚ) (n : Nat)
    (hm : 0 ≤ m) (h : ∀ a ∈ l, a.mass = m) (hn : l.length ≤ n) :
    quantity l ≤ (n : ℚ) * m := by
  rw [quantity_uniform l m h]
  have : (l.length : ℚ) ≤ (n : ℚ) := by exact_mod_cast hn
  exact mul_le_mul_of_nonneg_right this hm

lemma Discharge_snd_of_fst_false (cfg : Config) (s : ReactorState)
    (h : (Discharge cfg s).1 = false) : (Discharge cfg s).2 = s := by
  unfold Discharge at *
  by_cases hc : s.spent.length + cfg.n_assem_batch ≤ cfg.n_assem_spent
  · rw [if_pos hc] at h; simp at h
  · rw [if_neg hc]

lemma Discharge_fst_true_iff (cfg : Config) (s : ReactorState) :
    (Discharge cfg s).1 = true ↔
      s.spent.length + cfg.n_assem_batch ≤ cfg.n_assem_spent := by
  unfold Discharge
  by_cases hc : s.spent.length + cfg.n_assem_batch ≤ cfg.n_assem_spent
  · rw [if_pos hc]; simp [hc]
  · rw [if_neg hc]; simp [hc]

lemma Discharge_snd_of_fst_true (cfg : Config) (s : ReactorState)
    (h : (Discharge cfg s).1 = true) :
    (Discharge cfg s).2 =
      { s with
        core := s.core.drop cfg.n_assem_batch,
        spent := s.spent ++ Transmute cfg s (s.core.take cfg.n_assem_batch) } := by
  unfold Discharge at *
  by_cases hc : s.spent.length + cfg.n_assem_batch ≤ cfg.n_assem_spent
  · rw [if_pos hc]
  · rw [if_neg hc] at h; simp at h

/-- A sample configuration with one fuel type, used to instantiate the
claim theorems on concrete data. -/
def cfg0 : Config :=
  { n_assem_batch := 1
    assem_size := 10
    n_assem_core := 2
    n_assem_spent := 2
    n_assem_fresh := 1
    cycle_time := 2
    refuel_time := 1
    fuel_incommods := ["uox"]
    fuel_inrecipes := ["fresh_uox"]
    fuel_outrecipes := ["spent_uox"]
    fuel_outcommods := ["waste"]
    fuel_prefs := [1]
    pref_change_times := [3]
    pref_change_commods := ["uox"]
    pref_change_values := [5] }

/-- A sample fresh assembly. -/
def a1 : Assembly := { obj_id := 1, recipe := "fresh_uox", mass := 10 }

/-- A second sample fresh assembly. -/
def a2 : Assembly := { obj_id := 2, recipe := "fresh_uox", mass := 10 }

/-- A sample state at the end of an operating cycle: full core, discharge
due and possible. -/
def s0 : ReactorState :=
  { fresh := []
    core := [a1, a2]
    spent := []
    res_indexes := [(1, 0), (2, 0)]
    cycle_step := 2
    refuel_step := 0
    discharged := false
    fuel_prefs := [1] }

/-- Claim C2: discharge succeeds exactly when the spent buffer has room
for a full batch of `n_assem_batch` assemblies, and a failed discharge
returns false and leaves the whole state, in particular all three
inventories, unchanged. -/
theorem discharge_succeeds_iff_room_and_failure_atomic (cfg : Config)
    (s : ReactorState) (hsz : 0 < cfg.assem_size)
    (hu : ∀ a ∈ s.spent, a.mass = cfg.assem_size) :
    ((Discharge cfg s).1 = true ↔
      quantity s.spent + (cfg.n_assem_batch : ℚ) * cfg.assem_size ≤
        (cfg.n_assem_spent : ℚ) * cfg.assem_size)
    ∧ ((Discharge cfg s).1 = false → (Discharge cfg s).2 = s) := by
  constructor
  · rw [Discharge_fst_true_iff]
    rw [quantity_uniform s.spent cfg.assem_size hu, ← add_mul,
      mul_le_mul_right hsz]
    exact_mod_cast Iff.rfl
  · exact Discharge_snd_of_fst_false cfg s

/-- Claim C2 witness: concrete instance of the discharge room condition. -/
theorem discharge_succeeds_iff_room_and_failure_atomic_witness :
    ((0 : ℚ) < cfg0.assem_size ∧ ∀ a ∈ s0.spent, a.mass = cfg0.assem_size)
    ∧ (((Discharge cfg0 s0).1 = true ↔
        quantity s0.spent + (cfg0.n_assem_batch : ℚ) * cfg0.assem_size ≤
          (cfg0.n_assem_spent : ℚ) * cfg0.assem_size)
      ∧ ((Discharge cfg0 s0).1 = false → (Discharge cfg0 s0).2 = s0)) :=
  ⟨⟨by decide, by decide⟩,
    discharge_succeeds_iff_room_and_failure_atomic cfg0 s0 (by decide) (by decide)⟩

/-- Claim C3: a successful discharge appends to the spent buffer exactly
the transmuted front batch of the core, removing it from the core and not
touching the fresh buffer; the transmutation keeps every mass unchanged
and replaces the composition of a resolvable assembly with the outrecipe
of its resolved fuel type. -/
theorem transmute_at_discharge (cfg : Config) (s : ReactorState)
    (h : (Discharge cfg s).1 = true) :
    (Discharge cfg s).2.spent =
      s.spent ++ (s.core.take cfg.n_assem_batch).map (transmuteAssem cfg s)
    ∧ (Discharge cfg s).2.core = s.core.drop cfg.n_assem_batch
    ∧ (Discharge cfg s).2.fresh = s.fresh
    ∧ (∀ a, (transmuteAssem cfg s a).mass = a.mass)
    ∧ (∀ a i r, s.res_indexes.lookup a.obj_id = some i →
        cfg.fuel_outrecipes[i]? = some r → (transmuteAssem cfg s a).recipe = r) := by
  rw [Discharge_snd_of_fst_true cfg s h]
  refine ⟨rfl, rfl, rfl, fun a => rfl, fun a i r hi hr => ?_⟩
  simp [transmuteAssem, fuel_outrecipe, res_index, hi, hr]

/-- Claim C3 witness: concrete discharge of one assembly, transmuted to
the configured spent recipe with its mass intact. -/
theorem transmute_at_discharge_witness :
    (Discharge cfg0 s0).1 = true
    ∧ ((Discharge cfg0 s0).2.spent =
        s0.spent ++ (s0.core.take cfg0.n_assem_batch).map (transmuteAssem cfg0 s0)
      ∧ (Discharge cfg0 s0).2.core = s0.core.drop cfg0.n_assem_batch
      ∧ (Discharge cfg0 s0).2.fresh = s0.fresh
      ∧ (∀ a, (transmuteAssem cfg0 s0 a).mass = a.mass)
      ∧ (∀ a i r, s0.res_indexes.lookup a.obj_id = some i →
          cfg0.fuel_outrecipes[i]? = some r →
          (transmuteAssem cfg0 s0 a).recipe = r)) :=
  ⟨by decide, transmute_at_discharge cfg0 s0 (by decide)⟩

/-- Claim C4: attempting the guarded discharge twice within the same step
is the same as attempting it once; after a first successful discharge the
`discharged` flag blocks the second attempt, and after a failed one the
state is unchanged, so no second batch is ever transmuted or moved. -/
theorem discharge_idempotent_within_step (cfg : Config) (s : ReactorState) :
    dischargePhase cfg (dischargePhase cfg s) = dischargePhase cfg s := by
  by_cases hc : cfg.cycle_time ≤ s.cycle_step ∧ s.discharged = false
  · by_cases hb : (Discharge cfg s).1 = true
    · have h1 : dischargePhase cfg s =
          { (Discharge cfg s).2 with discharged := true, refuel_step := 0 } := by
        unfold dischargePhase
        rw [if_pos hc, if_pos hb]
      rw [h1]
      unfold dischargePhase
      rw [if_neg (by simp)]
    · have h1 : dischargePhase cfg s = s := by
        unfold dischargePhase
        rw [if_pos hc, if_neg hb]
        exact Discharge_snd_of_fst_false cfg s (by simpa using hb)
      rw [h1, h1]
  · have h1 : dischargePhase cfg s = s := by
      unfold dischargePhase
      rw [if_neg hc]
    rw [h1, h1]

lemma Load_cycle_step (cfg : Config) (s : ReactorState) :
    (Load cfg s).cycle_step = s.cycle_step := rfl

lemma Load_refuel_step (cfg : Config) (s : ReactorState) :
    (Load cfg s).refuel_step = s.refuel_step := rfl

lemma Load_discharged (cfg : Config) (s : ReactorState) :
    (Load cfg s).discharged = s.discharged := rfl

lemma Load_spent (cfg : Config) (s : ReactorState) :
    (Load cfg s).spent = s.spent := rfl

lemma Discharge_snd_cycle_step (cfg : Config) (s : ReactorState) :
    (Discharge cfg s).2.cycle_step = s.cycle_step := by
  unfold Discharge; split <;> rfl

lemma Discharge_snd_fresh (cfg : Config) (s : ReactorState) :
    (Discharge cfg s).2.fresh = s.fresh := by
  unfold Discharge; split <;> rfl

lemma dischargePhase_cycle_step (cfg : Config) (s : ReactorState) :
    (dischargePhase cfg s).cycle_step = s.cycle_step := by
  unfold dischargePhase
  split
  · split
    · simpa using Discharge_snd_cycle_step cfg s
    · exact Discharge_snd_cycle_step cfg s
  · rfl

lemma cycleNext_succ_imp_operating (cfg : Config) (t : ReactorState)
    (h : (cycleNext cfg t).cycle_step = t.cycle_step + 1) : Operating cfg t := by
  unfold cycleNext at h
  by_cases h1 : resumeReady cfg t
  · rw [if_pos h1] at h
    simp at h
  · rw [if_neg h1] at h
    by_cases h2 : Operating cfg t
    · exact h2
    · rw [if_neg h2] at h
      by_cases h3 : t.discharged = true
      · rw [if_pos h3] at h
        simp at h
      · rw [if_neg h3] at h
        simp at h

lemma cycleNext_of_discharged (cfg : Config) (t : ReactorState)
    (h : t.discharged = true) :
    (cycleNext cfg t).cycle_step = 0 ∨ (cycleNext cfg t).cycle_step = t.cycle_step := by
  unfold cycleNext
  by_cases h1 : resumeReady cfg t
  · rw [if_pos h1]; left; rfl
  · rw [if_neg h1]
    have h2 : ¬ Operating cfg t := fun hop => by simp [hop.2] at h
    rw [if_neg h2, if_pos h]
    right; rfl

lemma cycleNext_refuel_tick (cfg : Config) (t : ReactorState)
    (h : t.discharged = true) (hn : ¬ resumeReady cfg t) :
    (cycleNext cfg t).refuel_step = t.refuel_step + 1 := by
  unfold cycleNext
  have h2 : ¬ Operating cfg t := fun hop => by simp [hop.2] at h
  rw [if_neg hn, if_neg h2, if_pos h]

/-- Claim C5: the operating-cycle clock is incremented by a step only
while the facility is operating; while `discharged` holds (refueling) the
clock either stays put or is reset on resume; while stalled awaiting
discharge room the clock stays put; the refuel wait is tracked by a
separate counter that restarts at discharge and advances while
`discharged` holds without the resume condition. -/
theorem cycle_clock_advances_only_while_operating (cfg : Config) (s : ReactorState) :
    ((CycleAdvance cfg s).cycle_step = s.cycle_step + 1 →
      Operating cfg (Load cfg (dischargePhase cfg s)))
    ∧ ((Load cfg (dischargePhase cfg s)).discharged = true →
      (CycleAdvance cfg s).cycle_step = 0 ∨ (CycleAdvance cfg s).cycle_step = s.cycle_step)
    ∧ (cfg.cycle_time ≤ s.cycle_step → s.discharged = false →
      (Discharge cfg s).1 = false → (CycleAdvance cfg s).cycle_step = s.cycle_step)
    ∧ ((Load cfg (dischargePhase cfg s)).discharged = true →
      ¬ resumeReady cfg (Load cfg (dischargePhase cfg s)) →
      (CycleAdvance cfg s).refuel_step =
        (Load cfg (dischargePhase cfg s)).refuel_step + 1)
    ∧ (cfg.cycle_time ≤ s.cycle_step → s.discharged = false →
      (Discharge cfg s).1 = true → (dischargePhase cfg s).refuel_step = 0) := by
  have hts : (Load cfg (dischargePhase cfg s)).cycle_step = s.cycle_step := by
    rw [Load_cycle_step, dischargePhase_cycle_step]
  refine ⟨?_, ?_, ?_, ?_, ?_⟩
  · intro h
    apply cycleNext_succ_imp_operating cfg _
    unfold CycleAdvance at h
    rw [hts]
    exact h
  · intro h
    have := cycleNext_of_discharged cfg _ h
    unfold CycleAdvance
    rw [hts] at this
    exact this
  · intro hcs hdis hfail
    have hph : dischargePhase cfg s = s := by
      unfold dischargePhase
      rw [if_pos ⟨hcs, hdis⟩, if_neg (by simp [hfail])]
      exact Discharge_snd_of_fst_false cfg s hfail
    unfold CycleAdvance cycleNext
    rw [hph]
    have hd : (Load cfg s).discharged = false := by rw [Load_discharged]; exact hdis
    have h1 : ¬ resumeReady cfg (Load cfg s) := by
      intro hr
      unfold resumeReady at hr
      rw [hd] at hr
      exact Bool.noConfusion hr.1
    have h2 : ¬ Operating cfg (Load cfg s) := by
      intro hop
      unfold Operating at hop
      rw [Load_cycle_step] at hop
      exact absurd hop.1 (by omega)
    rw [if_neg h1, if_neg h2, if_neg (by simp [hd])]
    exact Load_cycle_step cfg s
  · intro h hn
    exact cycleNext_refuel_tick cfg _ h hn
  · intro hcs hdis hb
    unfold dischargePhase
    rw [if_pos ⟨hcs, hdis⟩, if_pos hb]

/-- Claim C5 witness: a concrete due discharge resets the refuel-wait
counter. -/
theorem cycle_clock_advances_only_while_operating_witness :
    cfg0.cycle_time ≤ s0.cycle_step ∧ s0.discharged = false
    ∧ (Discharge cfg0 s0).1 = true ∧ (dischargePhase cfg0 s0).refuel_step = 0 :=
  ⟨by decide, by decide, by decide,
    (cycle_clock_advances_only_while_operating cfg0 s0).2.2.2.2
      (by decide) (by decide) (by decide)⟩

/-- Claim C7: with no fresh-buffer capacity, no requests are produced
before the discharge of the running cycle, and any produced request set
implies a short core after a discharge (just-in-time policy). -/
theorem just_in_time_requests (cfg : Config) (s : ReactorState)
    (h : cfg.n_assem_fresh = 0) :
    (s.discharged = false → GetMatlRequests cfg s = [])
    ∧ (GetMatlRequests cfg s ≠ [] →
      s.core.length < cfg.n_assem_core ∧ s.discharged = true) := by
  constructor
  · intro hd
    unfold GetMatlRequests
    rw [if_pos ⟨h, by simp [hd]⟩]
  · intro hne
    unfold GetMatlRequests at hne
    by_cases hc : cfg.n_assem_fresh = 0 ∧
        ¬(s.core.length < cfg.n_assem_core ∧ s.discharged = true)
    · rw [if_pos hc] at hne
      exact absurd rfl hne
    · exact not_not.mp (not_and.mp hc h)

/-- A configuration with zero fresh-buffer capacity (just-in-time fuel
ordering). -/
def cfg1 : Config := { cfg0 with n_assem_fresh := 0 }

/-- Claim C7 witness: before discharge, the just-in-time reactor requests
nothing. -/
theorem just_in_time_requests_witness :
    cfg1.n_assem_fresh = 0 ∧ s0.discharged = false
    ∧ GetMatlRequests cfg1 s0 = [] :=
  ⟨by decide, by decide, (just_in_time_requests cfg1 s0 (by decide)).1 (by decide)⟩

/-- Claim C9: a mismatch among the parallel fuel arrays is rejected at
facility entry, so the facility never enters the simulation with
mismatched arrays; with consistent arrays and an empty preference array
the preference defaults to zero for every fuel type. -/
theorem entry_validates_fuel_arrays (cfg : Config) :
    (fuelArraysMismatched cfg → (EnterNotify cfg).isOk = false)
    ∧ (¬ fuelArraysMismatched cfg → cfg.fuel_prefs = [] →
      EnterNotify cfg =
        .ok { cfg with fuel_prefs := List.replicate cfg.fuel_incommods.length 0 })
    ∧ (∀ d, EnterNotify cfg = .ok d → ¬ fuelArraysMismatched cfg) := by
  refine ⟨?_, ?_, ?_⟩
  · intro hm
    unfold EnterNotify
    rw [if_pos hm]
    rfl
  · intro hm hp
    unfold EnterNotify
    rw [if_neg hm, if_pos hp]
  · intro d hd hm
    unfold EnterNotify at hd
    rw [if_pos hm] at hd
    exact Except.noConfusion hd

/-- A configuration with consistent fuel arrays and no preferences
specified. -/
def cfg3 : Config := { cfg0 with fuel_prefs := [] }

/-- Claim C9 witness: the empty preference array defaults to a zero
preference for the single fuel type. -/
theorem entry_validates_fuel_arrays_witness :
    ¬ fuelArraysMismatched cfg3 ∧ cfg3.fuel_prefs = []
    ∧ EnterNotify cfg3 =
      .ok { cfg3 with fuel_prefs := List.replicate cfg3.fuel_incommods.length 0 } :=
  ⟨by decide, by decide,
    (entry_validates_fuel_arrays cfg3).2.1 (by decide) (by decide)⟩

lemma flatten_fibers_perm {α β : Type} [DecidableEq β] (f : α → β) :
    ∀ (cs : List β) (l : List α), cs.Nodup → (∀ a ∈ l, f a ∈ cs) →
    List.Perm ((cs.map (fun c => l.filter (fun a => f a == c))).flatten) l := by
  intro cs
  induction cs with
  | nil =>
    intro l _ hcov
    have hl : l = [] := List.eq_nil_iff_forall_not_mem.mpr
      (fun a ha => by simpa using hcov a ha)
    subst hl
    simp
  | cons c cs ih =>
    intro l hnd hcov
    simp only [List.map_cons, List.flatten_cons]
    have hstep : ∀ c' ∈ cs,
        l.filter (fun a => f a == c') =
          (l.filter (fun a => !(f a == c))).filter (fun a => f a == c') := by
      intro c' hc'
      have hne : c' ≠ c := fun he => (List.nodup_cons.mp hnd).1 (he ▸ hc')
      rw [List.filter_filter]
      apply List.filter_congr
      intro a _
      by_cases hfa : f a = c'
      · simp [hfa, hne]
      · simp [hfa]
    rw [List.map_congr_left hstep]
    have hcov' : ∀ a ∈ l.filter (fun a => !(f a == c)), f a ∈ cs := by
      intro a ha
      have hm := List.mem_filter.mp ha
      have hin := hcov a hm.1
      have hne : f a ≠ c := by simpa using hm.2
      rcases List.mem_cons.mp hin with he | he
      · exact absurd he hne
      · exact he
    have hperm := ih (l.filter (fun a => !(f a == c))) (List.nodup_cons.mp hnd).2 hcov'
    exact (hperm.append_left (l.filter (fun a => f a == c))).trans
      (List.filter_append_perm _ l)

lemma PeekSpent_flatten_perm (cfg : Config) (s : ReactorState) :
    List.Perm (((PeekSpent cfg s).1.map Prod.snd).flatten) s.spent := by
  unfold PeekSpent
  simp only [List.map_map]
  exact flatten_fibers_perm (fuel_outcommod cfg s) _ s.spent
    (List.nodup_dedup _)
    (fun a ha => List.mem_dedup.mpr (List.mem_map_of_mem _ ha))

lemma takeFromGroup_cons_ne (c d : String) (l : List Assembly)
    (rest : List (String × List Assembly)) (hc : ¬ c = d) :
    takeFromGroup ((c, l) :: rest) d =
      ((takeFromGroup rest d).1, (c, l) :: (takeFromGroup rest d).2) := by
  simp only [takeFromGroup]
  rw [if_neg hc]

lemma takeFromGroup_spec (d : String) :
    ∀ (mats : List (String × List Assembly)),
    (∀ a mats1, takeFromGroup mats d = (some a, mats1) →
      List.Perm (a :: ((mats1.map Prod.snd).flatten)) ((mats.map Prod.snd).flatten))
    ∧ (∀ mats1, takeFromGroup mats d = (none, mats1) → mats1 = mats) := by
  intro mats
  induction mats with
  | nil =>
    constructor
    · intro a mats1 h
      simp [takeFromGroup] at h
    · intro mats1 h
      simp [takeFromGroup] at h
      simp [h]
  | cons p rest ih =>
    rcases p with ⟨c, l⟩
    by_cases hc : c = d
    · subst hc
      cases l with
      | nil =>
        constructor
        · intro a mats1 h
          simp [takeFromGroup] at h
        · intro mats1 h
          simp [takeFromGroup] at h
          rw [h]
      | cons a0 l1 =>
        constructor
        · intro a mats1 h
          simp [takeFromGroup] at h
          rw [← h.1, ← h.2]
          simp
        · intro mats1 h
          simp [takeFromGroup] at h
    · constructor
      · intro a mats1 h
        rw [takeFromGroup_cons_ne c d l rest hc] at h
        have h1 : (takeFromGroup rest d).1 = some a := congrArg Prod.fst h
        have h2 : (c, l) :: (takeFromGroup rest d).2 = mats1 := congrArg Prod.snd h
        have hr2 : takeFromGroup rest d = (some a, (takeFromGroup rest d).2) := by
          rw [← h1]
        have hperm := ih.1 a (takeFromGroup rest d).2 hr2
        rw [← h2]
        simp only [List.map_cons, List.flatten_cons]
        exact List.perm_middle.symm.trans (hperm.append_left l)
      · intro mats1 h
        rw [takeFromGroup_cons_ne c d l rest hc] at h
        have h1 : (takeFromGroup rest d).1 = none := congrArg Prod.fst h
        have h2 : (c, l) :: (takeFromGroup rest d).2 = mats1 := congrArg Prod.snd h
        have hr2 : takeFromGroup rest d = (none, (takeFromGroup rest d).2) := by
          rw [← h1]
        have htail := ih.2 (takeFromGroup rest d).2 hr2
        rw [← h2, htail]

lemma serveTrades_cons (mats : List (String × List Assembly)) (c : String)
    (cs : List String) :
    serveTrades mats (c :: cs) =
      match takeFromGroup mats c with
      | (some a, m1) => (a :: (serveTrades m1 cs).1, (serveTrades m1 cs).2)
      | (none, m1) => serveTrades m1 cs := rfl

lemma serveTrades_perm (cs : List String) :
    ∀ (mats : List (String × List Assembly)),
    List.Perm ((serveTrades mats cs).1 ++ (((serveTrades mats cs).2).map Prod.snd).flatten)
      ((mats.map Prod.snd).flatten) := by
  induction cs with
  | nil =>
    intro mats
    simp [serveTrades]
  | cons c cs ih =>
    intro mats
    rcases h : takeFromGroup mats c with ⟨o, mats1⟩
    cases o with
    | none =>
      have hm : mats1 = mats := (takeFromGroup_spec c mats).2 mats1 h
      have hred : serveTrades mats (c :: cs) = serveTrades mats1 cs := by
        rw [serveTrades_cons, h]
      rw [hred, hm]
      exact ih mats
    | some a =>
      have hred : serveTrades mats (c :: cs) =
          (a :: (serveTrades mats1 cs).1, (serveTrades mats1 cs).2) := by
        rw [serveTrades_cons, h]
      rw [hred]
      simp only [List.cons_append]
      have hperm := (takeFromGroup_spec c mats).1 a mats1 h
      exact ((ih mats1).cons a).trans hperm

lemma trade_round_perm (cfg : Config) (s : ReactorState) (trades : List String) :
    List.Perm ((GetMatlTrades cfg s trades).1 ++ (GetMatlTrades cfg s trades).2.spent)
      s.spent := by
  show List.Perm ((serveTrades (PopSpent cfg s).1 trades).1 ++
      ([] ++ (((serveTrades (PopSpent cfg s).1 trades).2).map Prod.snd).flatten)) s.spent
  rw [List.nil_append]
  exact (serveTrades_perm trades (PopSpent cfg s).1).trans
    (PeekSpent_flatten_perm cfg s)

/-- Claim C8: in a spent-fuel trade round, the responses together with the
remaining spent buffer are a permutation of the original spent buffer (so
every popped assembly not confirmed is returned unchanged and the buffer
holds exactly the unconfirmed assemblies), the fresh and core buffers are
untouched, and the preview `PeekSpent` removes nothing: it returns the
state unchanged together with the same grouped view that `PopSpent`
returns. -/
theorem trade_round_returns_unconfirmed (cfg : Config) (s : ReactorState)
    (trades : List String) :
    List.Perm ((GetMatlTrades cfg s trades).1 ++ (GetMatlTrades cfg s trades).2.spent)
      s.spent
    ∧ (GetMatlTrades cfg s trades).2.fresh = s.fresh
    ∧ (GetMatlTrades cfg s trades).2.core = s.core
    ∧ (PeekSpent cfg s).2 = s
    ∧ (PeekSpent cfg s).1 = (PopSpent cfg s).1 :=
  ⟨trade_round_perm cfg s trades, rfl, rfl, rfl, rfl⟩

/-- Claim C10: popping the whole spent inventory and pushing the returned
map straight back restores the spent buffer up to order: the same
assemblies are held (a permutation of the original buffer), the total mass
is unchanged, and the other buffers are untouched. -/
theorem pop_push_spent_roundtrip (cfg : Config) (s : ReactorState) :
    List.Perm (PushSpent (PopSpent cfg s).2 (PopSpent cfg s).1).spent s.spent
    ∧ quantity (PushSpent (PopSpent cfg s).2 (PopSpent cfg s).1).spent = quantity s.spent
    ∧ (PushSpent (PopSpent cfg s).2 (PopSpent cfg s).1).fresh = s.fresh
    ∧ (PushSpent (PopSpent cfg s).2 (PopSpent cfg s).1).core = s.core := by
  have hperm : List.Perm (PushSpent (PopSpent cfg s).2 (PopSpent cfg s).1).spent s.spent := by
    show List.Perm ([] ++ ((PopSpent cfg s).1.map Prod.snd).flatten) s.spent
    rw [List.nil_append]
    exact PeekSpent_flatten_perm cfg s
  refine ⟨hperm, ?_, rfl, rfl⟩
  unfold quantity
  exact (hperm.map Assembly.mass).sum_eq

instance (cfg : Config) (s : ReactorState) : Decidable (UniformMass cfg s) := by
  unfold UniformMass; exact inferInstance

instance (cfg : Config) (s : ReactorState) : Decidable (CountInv cfg s) := by
  unfold CountInv; exact inferInstance

instance (cfg : Config) (s : ReactorState) : Decidable (Inv cfg s) := by
  unfold Inv; exact inferInstance

instance (cfg : Config) (s : ReactorState) : Decidable (MassBounds cfg s) := by
  unfold MassBounds; exact inferInstance

lemma transmuteAssem_mass (cfg : Config) (s : ReactorState) (a : Assembly) :
    (transmuteAssem cfg s a).mass = a.mass := rfl

lemma Load_fresh (cfg : Config) (s : ReactorState) :
    (Load cfg s).fresh =
      s.fresh.drop (min (cfg.n_assem_core - s.core.length) s.fresh.length) := rfl

lemma Load_core (cfg : Config) (s : ReactorState) :
    (Load cfg s).core =
      s.core ++ s.fresh.take (min (cfg.n_assem_core - s.core.length) s.fresh.length) := rfl

lemma Inv_Load (cfg : Config) (s : ReactorState) (h : Inv cfg s) :
    Inv cfg (Load cfg s) := by
  obtain ⟨⟨hf, hc, hs⟩, ⟨nf, nc, ns⟩⟩ := h
  refine ⟨⟨?_, ?_, ?_⟩, ⟨?_, ?_, ?_⟩⟩
  · intro a ha
    rw [Load_fresh] at ha
    exact hf a (List.mem_of_mem_drop ha)
  · intro a ha
    rw [Load_core] at ha
    rcases List.mem_append.mp ha with h1 | h1
    · exact hc a h1
    · exact hf a (List.mem_of_mem_take h1)
  · intro a ha
    rw [Load_spent] at ha
    exact hs a ha
  · rw [Load_fresh]
    rw [List.length_drop]
    omega
  · rw [Load_core]
    rw [List.length_append, List.length_take]
    omega
  · rw [Load_spent]
    exact ns

lemma Inv_dischargePhase (cfg : Config) (s : ReactorState) (h : Inv cfg s) :
    Inv cfg (dischargePhase cfg s) := by
  by_cases hg : cfg.cycle_time ≤ s.cycle_step ∧ s.discharged = false
  · by_cases hb : (Discharge cfg s).1 = true
    · have hroom := (Discharge_fst_true_iff cfg s).mp hb
      have h1 : dischargePhase cfg s =
          { (Discharge cfg s).2 with discharged := true, refuel_step := 0 } := by
        unfold dischargePhase
        rw [if_pos hg, if_pos hb]
      rw [h1, Discharge_snd_of_fst_true cfg s hb]
      obtain ⟨⟨hf, hc, hs⟩, ⟨nf, nc, ns⟩⟩ := h
      refine ⟨⟨?_, ?_, ?_⟩, ⟨?_, ?_, ?_⟩⟩
      · intro a ha
        exact hf a ha
      · intro a ha
        exact hc a (List.mem_of_mem_drop ha)
      · intro a ha
        rcases List.mem_append.mp ha with h2 | h2
        · exact hs a h2
        · rcases List.mem_map.mp h2 with ⟨b, hb2, hab⟩
          rw [← hab, transmuteAssem_mass]
          exact hc b (List.mem_of_mem_take hb2)
      · exact nf
      · show (s.core.drop cfg.n_assem_batch).length ≤ cfg.n_assem_core
        rw [List.length_drop]
        omega
      · show (s.spent ++ Transmute cfg s (s.core.take cfg.n_assem_batch)).length ≤
          cfg.n_assem_spent
        rw [List.length_append]
        unfold Transmute
        rw [List.length_map, List.length_take]
        omega
    · have h1 : dischargePhase cfg s = s := by
        unfold dischargePhase
        rw [if_pos hg, if_neg hb]
        exact Discharge_snd_of_fst_false cfg s (by simpa using hb)
      rw [h1]
      exact h
  · have h1 : dischargePhase cfg s = s := by
      unfold dischargePhase
      rw [if_neg hg]
    rw [h1]
    exact h

lemma Inv_acceptOne (cfg : Config) (s : ReactorState) (e : String × Assembly)
    (t : ReactorState) (h : acceptOne cfg s e = some t)
    (hm : e.2.mass = cfg.assem_size) (hinv : Inv cfg s) : Inv cfg t := by
  obtain ⟨⟨hf, hc, hs⟩, ⟨nf, nc, ns⟩⟩ := hinv
  rcases hidx : commodIdx cfg.fuel_incommods e.1 with _ | i
  · have hnone : acceptOne cfg s e = none := by
      unfold acceptOne index_res
      rw [hidx]
    rw [hnone] at h
    exact Option.noConfusion h
  · have hstep : acceptOne cfg s e =
        (if s.fresh.length < cfg.n_assem_fresh then
          some { s with res_indexes := (e.2.obj_id, i) :: s.res_indexes,
                        fresh := s.fresh ++ [e.2] }
        else if s.core.length < cfg.n_assem_core then
          some { s with res_indexes := (e.2.obj_id, i) :: s.res_indexes,
                        core := s.core ++ [e.2] }
        else none) := by
      unfold acceptOne index_res
      rw [hidx]
    rw [hstep] at h
    by_cases h1 : s.fresh.length < cfg.n_assem_fresh
    · rw [if_pos h1] at h
      injection h with h
      rw [← h]
      refine ⟨⟨?_, hc, hs⟩, ⟨?_, nc, ns⟩⟩
      · intro a ha
        rcases List.mem_append.mp ha with h2 | h2
        · exact hf a h2
        · rw [List.mem_singleton.mp h2]
          exact hm
      · show (s.fresh ++ [e.2]).length ≤ cfg.n_assem_fresh
        rw [List.length_append]
        simp only [List.length_singleton]
        omega
    · rw [if_neg h1] at h
      by_cases h2c : s.core.length < cfg.n_assem_core
      · rw [if_pos h2c] at h
        injection h with h
        rw [← h]
        refine ⟨⟨hf, ?_, hs⟩, ⟨nf, ?_, ns⟩⟩
        · intro a ha
          rcases List.mem_append.mp ha with h2 | h2
          · exact hc a h2
          · rw [List.mem_singleton.mp h2]
            exact hm
        · show (s.core ++ [e.2]).length ≤ cfg.n_assem_core
          rw [List.length_append]
          simp only [List.length_singleton]
          omega
      · rw [if_neg h2c] at h
        exact Option.noConfusion h

lemma Inv_AcceptMatlTrades (cfg : Config) :
    ∀ (rs : List (String × Assembly)) (s t : ReactorState),
    AcceptMatlTrades cfg s rs = some t →
    (∀ e ∈ rs, (Prod.snd e).mass = cfg.assem_size) → Inv cfg s → Inv cfg t := by
  intro rs
  induction rs with
  | nil =>
    intro s t h _ hinv
    have h2 : some s = some t := h
    injection h2 with h3
    rw [← h3]
    exact hinv
  | cons e rs ih =>
    intro s t h hm hinv
    unfold AcceptMatlTrades at h
    rw [List.foldlM_cons] at h
    rcases ha : acceptOne cfg s e with _ | s1
    · rw [ha] at h
      simp at h
    · rw [ha] at h
      have h2 : List.foldlM (acceptOne cfg) s1 rs = some t := h
      exact ih s1 t h2 (fun x hx => hm x (List.mem_cons_of_mem e hx))
        (Inv_acceptOne cfg s e s1 ha (hm e (List.mem_cons_self e rs)) hinv)

lemma GetMatlTrades_fresh (cfg : Config) (s : ReactorState) (trades : List String) :
    (GetMatlTrades cfg s trades).2.fresh = s.fresh := rfl

lemma GetMatlTrades_core (cfg : Config) (s : ReactorState) (trades : List String) :
    (GetMatlTrades cfg s trades).2.core = s.core := rfl

lemma Inv_GetMatlTrades (cfg : Config) (s : ReactorState) (trades : List String)
    (hinv : Inv cfg s) : Inv cfg (GetMatlTrades cfg s trades).2 := by
  have hperm := trade_round_perm cfg s trades
  obtain ⟨⟨hf, hc, hs⟩, ⟨nf, nc, ns⟩⟩ := hinv
  refine ⟨⟨?_, ?_, ?_⟩, ⟨?_, ?_, ?_⟩⟩
  · intro a ha
    rw [GetMatlTrades_fresh] at ha
    exact hf a ha
  · intro a ha
    rw [GetMatlTrades_core] at ha
    exact hc a ha
  · intro a ha
    exact hs a (hperm.subset (List.mem_append_right _ ha))
  · rw [GetMatlTrades_fresh]
    exact nf
  · rw [GetMatlTrades_core]
    exact nc
  · have hlen := hperm.length_eq
    rw [List.length_append] at hlen
    omega

/-- Claim C1: under the buffer invariant (uniform assembly masses and
per-buffer assembly-count bounds), the mass in each inventory is bounded
by its capacity `count * assem_size`, and the invariant, hence the bounds,
is preserved by loading, by the guarded discharge, by accepting trades of
assembly-sized resources, and by a spent-fuel trade round including its
push-back of unconfirmed assemblies. -/
theorem inventory_capacity_invariant (cfg : Config) (s : ReactorState)
    (hsz : 0 ≤ cfg.assem_size) (hinv : Inv cfg s) :
    MassBounds cfg s
    ∧ Inv cfg (Load cfg s)
    ∧ Inv cfg (dischargePhase cfg s)
    ∧ (∀ rs t, AcceptMatlTrades cfg s rs = some t →
        (∀ e ∈ rs, (Prod.snd e).mass = cfg.assem_size) → Inv cfg t)
    ∧ (∀ trades, Inv cfg (GetMatlTrades cfg s trades).2) := by
  obtain ⟨⟨hf, hc, hs⟩, ⟨nf, nc, ns⟩⟩ := hinv
  refine ⟨⟨?_, ?_, ?_⟩, Inv_Load cfg s ⟨⟨hf, hc, hs⟩, ⟨nf, nc, ns⟩⟩,
    Inv_dischargePhase cfg s ⟨⟨hf, hc, hs⟩, ⟨nf, nc, ns⟩⟩,
    fun rs t h hm => Inv_AcceptMatlTrades cfg rs s t h hm ⟨⟨hf, hc, hs⟩, ⟨nf, nc, ns⟩⟩,
    fun trades => Inv_GetMatlTrades cfg s trades ⟨⟨hf, hc, hs⟩, ⟨nf, nc, ns⟩⟩⟩
  · exact quantity_le_of_uniform s.fresh cfg.assem_size cfg.n_assem_fresh hsz hf nf
  · exact quantity_le_of_uniform s.core cfg.assem_size cfg.n_assem_core hsz hc nc
  · exact quantity_le_of_uniform s.spent cfg.assem_size cfg.n_assem_spent hsz hs ns

/-- Claim C1 witness: concrete mass bounds at a full core. -/
theorem inventory_capacity_invariant_witness :
    ((0 : ℚ) ≤ cfg0.assem_size ∧ Inv cfg0 s0) ∧ MassBounds cfg0 s0 :=
  ⟨⟨by decide, by decide⟩,
    (inventory_capacity_invariant cfg0 s0 (by decide) (by decide)).1⟩

/-- Value of the last schedule entry in list order whose time equals `t`
and whose commodity resolves to fuel-type index `k` (later entries
overwrite earlier ones in the fold of `applyPrefChangesAux`). -/
def lastPrefChange (incommods : List String) (t k : Nat) :
    List (Nat × String × ℚ) → Option ℚ
  | [] => none
  | e :: es =>
    match lastPrefChange incommods t k es with
    | some v => some v
    | none =>
      if e.1 = t ∧ commodIdx incommods e.2.1 = some k then some e.2.2 else none

lemma lastPrefChange_cons (incommods : List String) (t k : Nat)
    (e : Nat × String × ℚ) (es : List (Nat × String × ℚ)) :
    lastPrefChange incommods t k (e :: es) =
      match lastPrefChange incommods t k es with
      | some v => some v
      | none =>
        if e.1 = t ∧ commodIdx incommods e.2.1 = some k then some e.2.2 else none := rfl

lemma applyPrefChangesAux_cons (incommods : List String) (t : Nat)
    (e : Nat × String × ℚ) (es : List (Nat × String × ℚ)) (p : List ℚ) :
    applyPrefChangesAux incommods t (e :: es) p =
      applyPrefChangesAux incommods t es
        (if e.1 = t then setPref incommods p e.2.1 e.2.2 else p) := rfl

lemma setPref_length (incommods : List String) (p : List ℚ) (c : String) (v : ℚ) :
    (setPref incommods p c v).length = p.length := by
  unfold setPref
  rcases commodIdx incommods c with _ | j
  · rfl
  · simp

lemma applyPrefChangesAux_length (incommods : List String) (t : Nat) :
    ∀ (es : List (Nat × String × ℚ)) (p : List ℚ),
    (applyPrefChangesAux incommods t es p).length = p.length := by
  intro es
  induction es with
  | nil => intro p; rfl
  | cons e es ih =>
    intro p
    rw [applyPrefChangesAux_cons, ih]
    by_cases ht : e.1 = t
    · rw [if_pos ht, setPref_length]
    · rw [if_neg ht]

lemma applyPrefChangesAux_getElem (incommods : List String) (t k : Nat) :
    ∀ (es : List (Nat × String × ℚ)) (p : List ℚ),
    (applyPrefChangesAux incommods t es p)[k]? =
      match lastPrefChange incommods t k es with
      | some v => if k < p.length then some v else none
      | none => p[k]? := by
  intro es
  induction es with
  | nil => intro p; rfl
  | cons e es ih =>
    intro p
    rw [applyPrefChangesAux_cons, ih, lastPrefChange_cons]
    rcases hlast : lastPrefChange incommods t k es with _ | v
    · dsimp only
      by_cases he : e.1 = t ∧ commodIdx incommods e.2.1 = some k
      · rw [if_pos he, if_pos he.1]
        unfold setPref
        rw [he.2]
        simp [List.getElem?_set]
      · rw [if_neg he]
        by_cases ht : e.1 = t
        · rw [if_pos ht]
          unfold setPref
          rcases hj : commodIdx incommods e.2.1 with _ | j
          · rfl
          · have hjk : j ≠ k := fun hh => he ⟨ht, by rw [hj, hh]⟩
            simp [List.getElem?_set, hjk]
        · rw [if_neg ht]
    · dsimp only
      by_cases ht : e.1 = t
      · rw [if_pos ht, setPref_length]
      · rw [if_neg ht]

lemma applyPrefChangesAux_idem (incommods : List String) (t : Nat)
    (es : List (Nat × String × ℚ)) (p : List ℚ) :
    applyPrefChangesAux incommods t es (applyPrefChangesAux incommods t es p) =
      applyPrefChangesAux incommods t es p := by
  apply List.ext_getElem? (fun k => ?_)
  rw [applyPrefChangesAux_getElem]
  rcases hlast : lastPrefChange incommods t k es with _ | v
  · dsimp only
  · dsimp only
    rw [applyPrefChangesAux_length, applyPrefChangesAux_getElem, hlast]

lemma lastPrefChange_none (incommods : List String) (t k : Nat) :
    ∀ (es : List (Nat × String × ℚ)),
    (∀ e ∈ es, e.1 = t → commodIdx incommods e.2.1 ≠ some k) →
    lastPrefChange incommods t k es = none := by
  intro es
  induction es with
  | nil => intro _; rfl
  | cons e es ih =>
    intro h
    rw [lastPrefChange_cons, ih (fun x hx => h x (List.mem_cons_of_mem e hx))]
    dsimp only
    exact if_neg (fun hc => h e (List.mem_cons_self e es) hc.1 hc.2)

lemma lastPrefChange_some (incommods : List String) (t k : Nat)
    (e0 : Nat × String × ℚ) :
    ∀ (es : List (Nat × String × ℚ)), e0 ∈ es → e0.1 = t →
    commodIdx incommods e0.2.1 = some k →
    (∀ e ∈ es, e.1 = t → commodIdx incommods e.2.1 = some k → e = e0) →
    lastPrefChange incommods t k es = some e0.2.2 := by
  intro es
  induction es with
  | nil =>
    intro hmem
    exact absurd hmem (List.not_mem_nil e0)
  | cons e es ih =>
    intro hmem ht hk huniq
    by_cases htail : e0 ∈ es
    · rw [lastPrefChange_cons,
        ih htail ht hk (fun x hx => huniq x (List.mem_cons_of_mem e hx))]
    · have he : e = e0 := by
        rcases List.mem_cons.mp hmem with h | h
        · exact h.symm
        · exact absurd h htail
      have hnone : lastPrefChange incommods t k es = none := by
        apply lastPrefChange_none
        intro x hx hxt hxk
        have hxe := huniq x (List.mem_cons_of_mem e hx) hxt hxk
        rw [hxe] at hx
        exact htail hx
      rw [lastPrefChange_cons, hnone]
      dsimp only
      rw [if_pos ⟨he ▸ ht, he ▸ hk⟩, he]

lemma prefsAt_zero (cfg : Config) :
    prefsAt cfg 0 = applyPrefChanges cfg 0 cfg.fuel_prefs := rfl

lemma prefsAt_succ (cfg : Config) (t : Nat) :
    prefsAt cfg (t + 1) = applyPrefChanges cfg (t + 1) (prefsAt cfg t) := rfl

lemma prefsAt_length (cfg : Config) (t : Nat) :
    (prefsAt cfg t).length = cfg.fuel_prefs.length := by
  induction t with
  | zero => exact applyPrefChangesAux_length _ _ _ _
  | succ t ih =>
    rw [prefsAt_succ]
    show (applyPrefChangesAux _ _ _ _).length = _
    rw [applyPrefChangesAux_length]
    exact ih

/-- Effective preferences before the schedule application of step `t`. -/
def prevPrefs (cfg : Config) : Nat → List ℚ
  | 0 => cfg.fuel_prefs
  | t + 1 => prefsAt cfg t

lemma prefsAt_eq (cfg : Config) (t : Nat) :
    prefsAt cfg t = applyPrefChanges cfg t (prevPrefs cfg t) := by
  cases t <;> rfl

lemma prevPrefs_length (cfg : Config) (t : Nat) :
    (prevPrefs cfg t).length = cfg.fuel_prefs.length := by
  cases t with
  | zero => rfl
  | succ t => exact prefsAt_length cfg t

/-- Claim C6: for a preference-change entry at time `T` for commodity `C`
resolving to fuel-type index `k`, with no other entry for `C` superseding
it inside the window up to `tf`, the effective preference of `C` is the
scheduled value at every step from `T` up to `tf`; if moreover every entry
for `C` lies at or after `T`, the effective preference before `T` is the
originally configured one; and applying the schedule entries of a step
twice within the step changes nothing beyond the first application. -/
theorem pref_schedule_effective_exactly_once (cfg : Config)
    (tf T k j : Nat) (C : String) (v : ℚ)
    (hj : (prefChanges cfg)[j]? = some (T, C, v))
    (hk : commodIdx cfg.fuel_incommods C = some k)
    (hklen : k < cfg.fuel_prefs.length)
    (hsup : ∀ i e, (prefChanges cfg)[i]? = some e →
      commodIdx cfg.fuel_incommods e.2.1 = some k → i ≠ j →
      (e.1 < T ∨ tf < e.1)) :
    (T ≤ tf → (prefsAt cfg tf)[k]? = some v)
    ∧ ((∀ e ∈ prefChanges cfg, commodIdx cfg.fuel_incommods e.2.1 = some k →
        T ≤ e.1) → tf < T → (prefsAt cfg tf)[k]? = cfg.fuel_prefs[k]?)
    ∧ (∀ t p, applyPrefChanges cfg t (applyPrefChanges cfg t p) =
        applyPrefChanges cfg t p) := by
  refine ⟨?_, ?_, fun t p => applyPrefChangesAux_idem _ _ _ _⟩
  · intro hT
    have huniqT : ∀ e ∈ prefChanges cfg, e.1 = T →
        commodIdx cfg.fuel_incommods e.2.1 = some k → e = (T, C, v) := by
      intro e he het hek
      obtain ⟨i, hi⟩ := List.mem_iff_getElem?.mp he
      by_cases hij : i = j
      · rw [hij, hj] at hi
        exact (Option.some.inj hi).symm
      · rcases hsup i e hi hek hij with hlt | hgt
        · exfalso
          rw [het] at hlt
          omega
        · exfalso
          rw [het] at hgt
          omega
    have hmem : (T, C, v) ∈ prefChanges cfg := by
      have h2 := List.getElem?_eq_some.mp hj
      rcases h2 with ⟨hlt, he⟩
      exact he ▸ List.getElem_mem hlt
    have hat : ∀ p : List ℚ, k < p.length → (applyPrefChanges cfg T p)[k]? = some v := by
      intro p hp
      show (applyPrefChangesAux _ _ _ _)[k]? = some v
      rw [applyPrefChangesAux_getElem,
        lastPrefChange_some cfg.fuel_incommods T k (T, C, v) (prefChanges cfg)
          hmem rfl hk huniqT]
      dsimp only
      rw [if_pos hp]
    have hnone_u : ∀ u, T < u → u ≤ tf →
        lastPrefChange cfg.fuel_incommods u k (prefChanges cfg) = none := by
      intro u hTu hutf
      apply lastPrefChange_none
      intro e he heu hek
      obtain ⟨i, hi⟩ := List.mem_iff_getElem?.mp he
      by_cases hij : i = j
      · rw [hij, hj] at hi
        have he2 := (Option.some.inj hi).symm
        rw [he2] at heu
        simp only at heu
        omega
      · rcases hsup i e hi hek hij with hlt | hgt
        · rw [heu] at hlt
          omega
        · rw [heu] at hgt
          omega
    have key : ∀ n, T + n ≤ tf → (prefsAt cfg (T + n))[k]? = some v := by
      intro n
      induction n with
      | zero =>
        intro _
        simp only [Nat.add_zero]
        rw [prefsAt_eq]
        exact hat (prevPrefs cfg T) (by rw [prevPrefs_length]; exact hklen)
      | succ n ih =>
        intro hle
        have hstep : T + (n + 1) = (T + n) + 1 := rfl
        rw [hstep, prefsAt_succ]
        show (applyPrefChangesAux _ _ _ _)[k]? = some v
        rw [applyPrefChangesAux_getElem, hnone_u ((T + n) + 1) (by omega) (by omega)]
        dsimp only
        exact ih (by omega)
    obtain ⟨n, hn⟩ : ∃ n, tf = T + n := ⟨tf - T, by omega⟩
    rw [hn]
    exact key n (by omega)
  · intro hall htf
    have hnone2 : ∀ u, u < T →
        lastPrefChange cfg.fuel_incommods u k (prefChanges cfg) = none := by
      intro u hu
      apply lastPrefChange_none
      intro e he heu hek
      have hTe := hall e he hek
      rw [heu] at hTe
      omega
    have key2 : ∀ u, u < T → (prefsAt cfg u)[k]? = cfg.fuel_prefs[k]? := by
      intro u
      induction u with
      | zero =>
        intro hu
        rw [prefsAt_zero]
        show (applyPrefChangesAux _ _ _ _)[k]? = _
        rw [applyPrefChangesAux_getElem, hnone2 0 hu]
      | succ u ih =>
        intro hu
        rw [prefsAt_succ]
        show (applyPrefChangesAux _ _ _ _)[k]? = _
        rw [applyPrefChangesAux_getElem, hnone2 (u + 1) hu]
        dsimp only
        exact ih (by omega)
    exact key2 tf htf

/-- Claim C6 witness: the single scheduled change of the sample
configuration, at time 3 for the only commodity, is in effect at step 4. -/
theorem pref_schedule_effective_exactly_once_witness :
    ((3 : Nat) ≤ 4 ∧ (prefChanges cfg0)[0]? = some (3, "uox", (5 : ℚ))
      ∧ commodIdx cfg0.fuel_incommods "uox" = some 0
      ∧ 0 < cfg0.fuel_prefs.length)
    ∧ (prefsAt cfg0 4)[0]? = some (5 : ℚ) :=
  ⟨⟨by decide, by decide, by decide, by decide⟩,
    (pref_schedule_effective_exactly_once cfg0 4 3 0 0 "uox" 5 (by decide)
      (by decide) (by decide)
      (by
        intro i e hi hke hij
        cases i with
        | zero => exact absurd rfl hij
        | succ m => simp [prefChanges, cfg0] at hi)).1 (by decide)⟩

end Cycamore
